import Mathlib

/-!
A shallow embedding of `src/Append_data.py` (mixed-file appender with optional
de-duplication) together with proofs about its behaviour.

Tables are modelled as an ordered list of column names plus an ordered list of
rows; a cell is `Option String`, with `none` standing for a missing value
(pandas `NaN`).  Machine-level concerns (actual file I/O, pandas parsing) enter
only as explicit inputs to the modelled functions.
-/

namespace AppendData

/-- A row: one `Option String` cell per column, `none` = missing (NaN). -/
abbrev Row := List (Option String)

/-- A pandas DataFrame, reduced to what the script observes: ordered column
names and ordered rows. -/
structure Table where
  cols : List String
  rows : List Row
deriving DecidableEq, Repr

/-! ### Character-level string helpers

Python string operations (`str.strip`, `str.lower`, splitting, suffix tests)
are modelled structurally on the character list of a `String`, so that every
definition evaluates by kernel reduction. -/

/-- Python `str.strip()`: drop leading and trailing whitespace. -/
def strip (s : String) : String :=
  (((s.data.dropWhile Char.isWhitespace).reverse.dropWhile Char.isWhitespace).reverse).asString

/-- Python `str.lower()` (ASCII case folding, which covers file names). -/
def lowerStr (s : String) : String := (s.data.map Char.toLower).asString

/-- Split a character list at every separator (Python `str.split(sep)`
semantics: separators delimit fields, empty fields included). -/
def splitCharAux (p : Char → Bool) : List Char → List Char → List (List Char)
  | [], acc => [acc.reverse]
  | c :: rest, acc =>
    if p c then acc.reverse :: splitCharAux p rest []
    else splitCharAux p rest (c :: acc)

/-! ### `clean_column_names` (Append_data.py lines 30-42)

The Python keeps a dict `seen : name -> count`; a repeated (trimmed) name gets
the suffix `.k` where `k` is its new count.  The dict is modelled as an
association list. -/

/-- Lookup in the `seen` dict (`name in seen` / `seen[name]`). -/
def lookupSeen : List (String × Nat) → String → Option Nat
  | [], _ => none
  | p :: ps, n => if p.1 = n then some p.2 else lookupSeen ps n

/-- `seen[name] += 1`. -/
def bumpSeen (seen : List (String × Nat)) (n : String) : List (String × Nat) :=
  seen.map (fun p => if p.1 = n then (p.1, p.2 + 1) else p)

/-- The suffixed name `f"{name}.{k}"`. -/
def sfx (n : String) (k : Nat) : String := n ++ "." ++ toString k

/-- Loop body of `clean_column_names`. -/
def cleanAux : List (String × Nat) → List String → List String
  | _, [] => []
  | seen, c :: cs =>
    let name := strip c
    match lookupSeen seen name with
    | some k => sfx name (k + 1) :: cleanAux (bumpSeen seen name) cs
    | none => name :: cleanAux ((name, 0) :: seen) cs

/-- `clean_column_names(cols)`: strip whitespace, suffix repeated names with
`.1`, `.2`, ... -/
def clean_column_names (cols : List String) : List String := cleanAux [] cols

/-! ### File discovery (Append_data.py lines 44-58) -/

/-- The eight supported extensions, in `SUPPORTED_PATTERNS` order. -/
def SUPPORTED_EXTENSIONS : List String :=
  ["xlsx", "xlsm", "xls", "xlsb", "ods", "csv", "tsv", "txt"]

/-- `pathlib.Path.stem`: the file name with its final suffix removed; a
suffix is a final `.part` whose dot is neither the first nor the last
character of the name. -/
def stemOf (name : String) : String :=
  let r := name.data.reverse
  match r.findIdx? (fun c => c == '.') with
  | some j =>
    if 0 < j && j + 1 < r.length then (name.data.take (r.length - 1 - j)).asString
    else name
  | none => name

/-- `cwd.glob("*.ext")` membership for one pattern, as suffix matching. -/
def matchesPattern (ext : String) (name : String) : Bool :=
  ("." ++ ext).data.isSuffixOf name.data

/-- `p.name.startswith("~$")`: Office lock/temp files. -/
def isLockFile (name : String) : Bool := "~$".data.isPrefixOf name.data

/-- Substring test on character lists (Python `in` on strings). -/
def isSubList (pat : List Char) : List Char → Bool
  | [] => pat.isEmpty
  | c :: rest => pat.isPrefixOf (c :: rest) || isSubList pat rest

/-- `"_Appended_data" in p.stem`: output of a previous run. -/
def isPriorOutput (name : String) : Bool :=
  isSubList "_Appended_data".toList (stemOf name).toList

/-- Lexicographic less-or-equal on character lists by code point (Python
string comparison, as used by `sorted`). -/
def lexLe : List Char → List Char → Bool
  | [], _ => true
  | _ :: _, [] => false
  | a :: as, b :: bs =>
    if a.toNat = b.toNat then lexLe as bs else decide (a.toNat < b.toNat)

/-- Sort key relation of `sorted(files, key=lambda p: p.name.lower())`. -/
def lowerLe (a b : String) : Prop := lexLe (lowerStr a).data (lowerStr b).data = true

instance : DecidableRel lowerLe :=
  fun a b => inferInstanceAs (Decidable (lexLe (lowerStr a).data (lowerStr b).data = true))

/-- Does the name match any supported pattern? -/
def hasSupportedExtension (name : String) : Bool :=
  SUPPORTED_EXTENSIONS.any (fun e => matchesPattern e name)

/-- `discover_data_files()`, over the list of file names present in the
working directory: glob each pattern (skipping `~$` lock files), drop names
whose stem contains `_Appended_data`, and sort by lower-cased name.
`List.insertionSort` is stable, as is Python's `sorted`. -/
def discover_data_files (names : List String) : List String :=
  let globbed := SUPPORTED_EXTENSIONS.flatMap
    (fun e => names.filter (fun n => matchesPattern e n && !(isLockFile n)))
  let kept := globbed.filter (fun n => !(isPriorOutput n))
  List.insertionSort lowerLe kept

/-! ### Delimiter sniffing (Append_data.py lines 60-72)

`sniff_delimiter` reads a 32 KiB sample (`none` below = the `open`/`read`
raised), returns `,` on an empty sample, and otherwise defers to
`csv.Sniffer().sniff(sample, delimiters=[",", ";", "\t", "|"])`, falling back
to `,` if the sniffer raises. -/

/-- Occurrences of a character in a string. -/
def countChar (d : Char) (s : String) : Nat := s.toList.countP (fun c => c == d)

/-- Non-empty lines of the sample. -/
def sampleLines (sample : String) : List String :=
  ((splitCharAux (fun c => c == '\n') sample.data []).map List.asString).filter
    (fun l => l != "")

/-- Modelled from the spec: the delimiter-inference heuristic itself lives in
the Python standard library (`csv.Sniffer`), not in this repository.  Per the
spec it infers the delimiter among the fixed candidate set
`{comma, semicolon, tab, pipe}` by frequency/consistency over the sampled
lines, and fails (raises) when no candidate fits; a candidate fits when it
occurs a consistent positive number of times on every sampled line. -/
def inferDelimiter (sample : String) : Option Char :=
  match sampleLines sample with
  | [] => none
  | l :: ls =>
    [',', ';', '\t', '|'].find?
      (fun d => (countChar d l != 0) && ls.all (fun l2 => countChar d l2 == countChar d l))

/-- `sniff_delimiter`: `none` input = the file read raised (caught, fallback
`,`); empty sample = fallback `,`; sniffer failure = fallback `,`. -/
def sniff_delimiter (sampleRead : Option String) : Char :=
  match sampleRead with
  | none => ','
  | some sample =>
    if sample = "" then ','
    else
      match inferDelimiter sample with
      | some d => d
      | none => ','

/-! ### Readers (Append_data.py lines 74-133)

Parsing itself is pandas; a parse attempt is an input here (`none` = the parse
raised).  What the script adds on top of a successful parse is header cleaning
and the provenance column. -/

/-- A parse result as delivered by pandas, before the script touches it. -/
structure RawTable where
  cols : List String
  rows : List Row
deriving DecidableEq, Repr

/-- `df.columns = clean_column_names(df.columns); df.insert(0, "Source_File", path.name)`.
`DataFrame.insert` raises `ValueError` when the column already exists
(`allow_duplicates` defaults to `False`); the raise is modelled as `none`. -/
def insertProvenance (fileName : String) (raw : RawTable) : Option Table :=
  let cleaned := clean_column_names raw.cols
  if "Source_File" ∈ cleaned then none
  else some ⟨"Source_File" :: cleaned, raw.rows.map (fun r => some fileName :: r)⟩

/-- `read_delimited_safely`: try the candidate encodings in order
(`utf-8-sig`, `utf-8`, `cp1252`, `latin1`); `parses` holds the result of
`pd.read_csv` under each encoding in that order.  Any exception inside the
loop body (a failed parse, or the `insert` raising) moves on to the next
encoding; when all fail the function warns and returns `None`. -/
def read_delimited_safely (fileName : String) (parses : List (Option RawTable)) : Option Table :=
  match parses with
  | [] => none
  | some raw :: ps =>
    match insertProvenance fileName raw with
    | some t => some t
    | none => read_delimited_safely fileName ps
  | none :: ps => read_delimited_safely fileName ps

/-- `read_excel_safely`: one engine chosen by extension, one parse attempt;
any exception (missing engine, failed parse, or the `insert` raising) is
caught, a warning is printed, and `None` is returned. -/
def read_excel_safely (fileName : String) (parse : Option RawTable) : Option Table :=
  match parse with
  | some raw => insertProvenance fileName raw
  | none => none

/-! ### Merging (Append_data.py line 239): `pd.concat(dfs, ignore_index=True, sort=False)` -/

/-- Append the not-yet-seen names of `cs` to `acc`, in order. -/
def colUnion (acc : List String) (cs : List String) : List String :=
  cs.foldl (fun a c => if c ∈ a then a else a ++ [c]) acc

/-- Columns of the concatenation: ordered union, first-seen order across the
input tables, left to right. -/
def mergeCols (ts : List Table) : List String :=
  ts.foldl (fun a t => colUnion a t.cols) []

/-- Position of the first column named `c`. -/
def findIdxOf (c : String) : List String → Option Nat
  | [] => none
  | x :: xs => if x = c then some 0 else (findIdxOf c xs).map (· + 1)

/-- The value a row holds for column `c` of a table with columns `cols`:
the cell under the first column named `c`, or missing when there is none. -/
def cellVal (cols : List String) (r : Row) (c : String) : Option String :=
  match findIdxOf c cols with
  | some i => r.getD i none
  | none => none

/-- Reindex a row of a table with columns `cols` to the column list `u`;
columns absent from `cols` get the missing marker (NaN). -/
def alignRow (cols : List String) (u : List String) (r : Row) : Row :=
  u.map (fun c => cellVal cols r c)

/-- `pd.concat(dfs, ignore_index=True, sort=False)`: outer column union in
first-seen order, rows concatenated in input order, absent cells missing. -/
def mergeTables (ts : List Table) : Table :=
  let u := mergeCols ts
  ⟨u, ts.flatMap (fun t => t.rows.map (alignRow t.cols u))⟩

/-- One-pass first-seen de-duplication of a list of names (specification-side
description of the merged column order). -/
def firstSeen (l : List String) : List String :=
  l.foldl (fun a c => if c ∈ a then a else a ++ [c]) []

/-! ### De-duplication (Append_data.py lines 262-265):
`appended.drop_duplicates(subset=[selected], keep="first").reset_index(drop=True)` -/

/-- Index of the key column. -/
def keyIdx (t : Table) (key : String) : Option Nat := findIdxOf key t.cols

/-- The key value of a row (pandas compares NaN keys equal in
`drop_duplicates`, so `none` is an ordinary value here). -/
def keyAt (cols : List String) (key : String) (r : Row) : Option String :=
  cellVal cols r key

/-- Scan rows in order, keeping a row exactly when its key cell has not been
seen before. -/
def dedupeAux (i : Nat) (seen : List (Option String)) : List Row → List Row
  | [] => []
  | r :: rs =>
    let k := r.getD i none
    if k ∈ seen then dedupeAux i seen rs
    else r :: dedupeAux i (k :: seen) rs

/-- `drop_duplicates(subset=[key], keep="first")` together with the script's
`removed = before - after` bookkeeping (lines 262-265). -/
def drop_duplicates (t : Table) (key : String) : Table × Nat :=
  match keyIdx t key with
  | some i =>
    let rows' := dedupeAux i [] t.rows
    (⟨t.cols, rows'⟩, t.rows.length - rows'.length)
  | none => (t, 0)

/-- Declarative first-occurrence-wins reference: keep the head, drop every
later row sharing its key, recurse. -/
def firstWins (keyOf : Row → Option String) : List Row → List Row
  | [] => []
  | r :: rs =>
    r :: firstWins keyOf (rs.filter (fun r2 => !(keyOf r2 == keyOf r)))
  termination_by rows => rows.length
  decreasing_by simp only [List.length_cons]; exact Nat.lt_succ_of_le (List.length_filter_le _ _)

/-! ### Output naming (Append_data.py lines 27-28, 186-192) -/

/-- A wall-clock instant at second precision, as consumed by
`datetime.now().strftime("%Y%m%d_%H%M%S")`. -/
structure DateTime where
  year : Nat
  month : Nat
  day : Nat
  hour : Nat
  minute : Nat
  second : Nat
deriving DecidableEq, Repr

/-- Two-digit zero-padded field (`%m`, `%d`, `%H`, `%M`, `%S`). -/
def pad2 (n : Nat) : String := if n < 10 then "0" ++ toString n else toString n

/-- Four-digit zero-padded year (`%Y`). -/
def pad4 (n : Nat) : String :=
  if n < 10 then "000" ++ toString n
  else if n < 100 then "00" ++ toString n
  else if n < 1000 then "0" ++ toString n
  else toString n

/-- `timestamp()`: `datetime.now().strftime("%Y%m%d_%H%M%S")`. -/
def timestamp (t : DateTime) : String :=
  pad4 t.year ++ pad2 t.month ++ pad2 t.day ++ "_" ++
    pad2 t.hour ++ pad2 t.minute ++ pad2 t.second

/-- `safe_output_name(base_name, ext)`: `str(Path.cwd() / f"{base_name}_{ts}.{ext}")`. -/
def safe_output_name (cwd base_name ext : String) (t : DateTime) : String :=
  cwd ++ "/" ++ base_name ++ "_" ++ timestamp t ++ "." ++ ext

/-! ### `main` and the `__main__` wrapper (Append_data.py lines 210-291) -/

/-- How a run of `main()` ends: a `sys.exit(code)` call, or a normal return. -/
inductive Outcome where
  | exitReq (code : Nat)
  | finished
deriving DecidableEq, Repr

/-- What the surrounding process can observe of one run. -/
structure RunResult where
  outcome : Outcome
  wroteOutput : Bool
deriving DecidableEq, Repr

/-- The control flow of `main()` (lines 210-277): `files` is the discovery
result, `tables` the non-empty successfully read DataFrames, `doDedupe` the
user's duplicate-removal answer, `selected` the column-selection result.
`sys.exit(1)` on no files, on no readable/non-empty files, and on a dedupe
request with no valid column; otherwise an output file is written and `main`
returns normally. -/
def mainRun (files : List String) (tables : List Table)
    (doDedupe : Bool) (selected : Option String) : RunResult :=
  if files.isEmpty then ⟨.exitReq 1, false⟩
  else if tables.isEmpty then ⟨.exitReq 1, false⟩
  else if doDedupe then
    match selected with
    | none => ⟨.exitReq 1, false⟩
    | some _ => ⟨.finished, true⟩
  else ⟨.finished, true⟩

/-- The `if __name__ == "__main__"` wrapper (lines 279-291): `sys.exit(1)`
raises `SystemExit`, which the wrapper catches with `except SystemExit: pass`;
after the `finally` block the script falls off the end, so the interpreter
terminates normally.  The process exit status is therefore `0` on every path. -/
def processExitCode (r : RunResult) : Nat :=
  match r.outcome with
  | .exitReq _ => 0
  | .finished => 0

/-! ### Proof-side auxiliary definitions -/

/-- The decimal digits of `n`, most significant first (fuel-free counterpart
of the digit spelling underlying `Nat.repr`). -/
def toDigitsRec (n : Nat) : List Char :=
  if _h : n < 10 then [Nat.digitChar n]
  else toDigitsRec (n / 10) ++ [Nat.digitChar (n % 10)]
  decreasing_by exact Nat.div_lt_self (by omega) (by omega)

/-- Read a digit list back as a number. -/
def digitsVal (l : List Char) : Nat := l.foldl (fun a c => a * 10 + (c.toNat - 48)) 0

/-- A string containing no period character. -/
def dotFree (s : String) : Prop := '.' ∉ s.data

instance (s : String) : Decidable (dotFree s) :=
  inferInstanceAs (Decidable ('.' ∉ s.data))

/-! ## Lemmas about decimal rendering (`Nat.repr`) -/

theorem toDigitsRec_lt {n : Nat} (h : n < 10) : toDigitsRec n = [Nat.digitChar n] := by
  rw [toDigitsRec]
  exact dif_pos h

theorem toDigitsRec_ge {n : Nat} (h : ¬ n < 10) :
    toDigitsRec n = toDigitsRec (n / 10) ++ [Nat.digitChar (n % 10)] := by
  rw [toDigitsRec]
  exact dif_neg h

theorem toDigitsCore_eq :
    ∀ (fuel n : Nat) (ds : List Char), n < fuel →
      Nat.toDigitsCore 10 fuel n ds = toDigitsRec n ++ ds := by
  intro fuel
  induction fuel with
  | zero => intro n ds h; omega
  | succ f ih =>
    intro n ds h
    simp only [Nat.toDigitsCore]
    by_cases h0 : n / 10 = 0
    · rw [if_pos h0]
      have h10 : n < 10 := by omega
      rw [toDigitsRec_lt h10, Nat.mod_eq_of_lt h10]
      rfl
    · rw [if_neg h0]
      have hlt : n / 10 < f := by omega
      rw [toDigitsRec_ge (show ¬ n < 10 by omega), ih (n / 10) _ hlt]
      simp [List.append_assoc]

theorem repr_eq_toDigitsRec (n : Nat) : Nat.repr n = (toDigitsRec n).asString := by
  unfold Nat.repr Nat.toDigits
  rw [toDigitsCore_eq (n + 1) n [] (Nat.lt_succ_self n), List.append_nil]

theorem toString_nat_eq (n : Nat) : (toString n : String) = Nat.repr n := rfl

theorem repr_data (n : Nat) : (Nat.repr n).data = toDigitsRec n := by
  rw [repr_eq_toDigitsRec]; rfl

theorem digitChar_toNat {n : Nat} (h : n < 10) : (Nat.digitChar n).toNat = 48 + n := by
  interval_cases n <;> decide

theorem digitChar_ne_dot {n : Nat} (h : n < 10) : Nat.digitChar n ≠ '.' := by
  interval_cases n <;> decide

theorem digitChar_isDigit {n : Nat} (h : n < 10) : (Nat.digitChar n).isDigit = true := by
  interval_cases n <;> decide

theorem digitsVal_append_one (l : List Char) (c : Char) :
    digitsVal (l ++ [c]) = digitsVal l * 10 + (c.toNat - 48) := by
  simp [digitsVal, List.foldl_append]

theorem digitsVal_toDigitsRec : ∀ n : Nat, digitsVal (toDigitsRec n) = n := by
  intro n
  induction n using Nat.strong_induction_on with
  | _ n ih =>
    by_cases h : n < 10
    · rw [toDigitsRec_lt h]
      simp [digitsVal, digitChar_toNat h]
    · rw [toDigitsRec_ge h, digitsVal_append_one,
        ih (n / 10) (Nat.div_lt_self (by omega) (by omega)),
        digitChar_toNat (Nat.mod_lt n (by omega))]
      omega

theorem repr_injective {a b : Nat} (h : Nat.repr a = Nat.repr b) : a = b := by
  have h2 : toDigitsRec a = toDigitsRec b := by
    have h3 := congrArg String.data h
    rw [repr_data, repr_data] at h3
    exact h3
  calc a = digitsVal (toDigitsRec a) := (digitsVal_toDigitsRec a).symm
  _ = digitsVal (toDigitsRec b) := by rw [h2]
  _ = b := digitsVal_toDigitsRec b

theorem dot_not_mem_toDigitsRec : ∀ n : Nat, '.' ∉ toDigitsRec n := by
  intro n
  induction n using Nat.strong_induction_on with
  | _ n ih =>
    by_cases h : n < 10
    · rw [toDigitsRec_lt h]
      simp only [List.mem_singleton]
      exact fun he => digitChar_ne_dot h he.symm
    · rw [toDigitsRec_ge h]
      simp only [List.mem_append, List.mem_singleton]
      rintro (hm | he)
      · exact ih (n / 10) (Nat.div_lt_self (by omega) (by omega)) hm
      · exact digitChar_ne_dot (Nat.mod_lt n (by omega)) he.symm

theorem toDigitsRec_all_digit : ∀ (n : Nat), ∀ c ∈ toDigitsRec n, c.isDigit = true := by
  intro n
  induction n using Nat.strong_induction_on with
  | _ n ih =>
    intro c hc
    by_cases h : n < 10
    · rw [toDigitsRec_lt h] at hc
      rw [List.mem_singleton.mp hc]
      exact digitChar_isDigit h
    · rw [toDigitsRec_ge h] at hc
      rcases List.mem_append.mp hc with hm | he
      · exact ih (n / 10) (Nat.div_lt_self (by omega) (by omega)) c hm
      · rw [List.mem_singleton.mp he]
        exact digitChar_isDigit (Nat.mod_lt n (by omega))

theorem toDigitsRec_length_one {n : Nat} (h : n < 10) : (toDigitsRec n).length = 1 := by
  rw [toDigitsRec_lt h]; rfl

theorem toDigitsRec_length :
    ∀ (k n : Nat), 10 ^ k ≤ n → n < 10 ^ (k + 1) → (toDigitsRec n).length = k + 1 := by
  intro k
  induction k with
  | zero =>
    intro n _ h2
    exact toDigitsRec_length_one (by simpa using h2)
  | succ j ih =>
    intro n h1 h2
    have h10 : (10 : Nat) ≤ 10 ^ (j + 1) := by
      calc (10 : Nat) = 10 ^ 1 := (pow_one 10).symm
      _ ≤ 10 ^ (j + 1) := Nat.pow_le_pow_right (by omega) (by omega)
    have hge : ¬ n < 10 := by omega
    rw [toDigitsRec_ge hge, List.length_append]
    have hdiv1 : 10 ^ j ≤ n / 10 := by
      rw [Nat.le_div_iff_mul_le (by omega)]
      calc 10 ^ j * 10 = 10 ^ (j + 1) := by rw [pow_succ]
      _ ≤ n := h1
    have hdiv2 : n / 10 < 10 ^ (j + 1) := by
      rw [Nat.div_lt_iff_lt_mul (by omega)]
      calc n < 10 ^ (j + 1 + 1) := h2
      _ = 10 ^ (j + 1) * 10 := by rw [pow_succ]
    rw [ih (n / 10) hdiv1 hdiv2]
    rfl

/-! ## Lemmas about column lookup -/

theorem findIdxOf_eq_none {key : String} :
    ∀ {cols : List String}, key ∉ cols → findIdxOf key cols = none := by
  intro cols
  induction cols with
  | nil => intro; rfl
  | cons x xs ih =>
    intro h
    have hx : x ≠ key := fun he => h (he ▸ List.mem_cons_self x xs)
    have hxs : key ∉ xs := fun hm => h (List.mem_cons_of_mem _ hm)
    simp [findIdxOf, hx, ih hxs]

theorem findIdxOf_mem {key : String} :
    ∀ {cols : List String}, key ∈ cols → ∃ i, findIdxOf key cols = some i := by
  intro cols
  induction cols with
  | nil => intro h; cases h
  | cons x xs ih =>
    intro h
    by_cases hx : x = key
    · exact ⟨0, by simp [findIdxOf, hx]⟩
    · have hxs : key ∈ xs := by
        rcases List.mem_cons.mp h with rfl | hm
        · exact absurd rfl hx
        · exact hm
      obtain ⟨i, hi⟩ := ih hxs
      exact ⟨i + 1, by simp [findIdxOf, hx, hi]⟩

theorem keyAt_eq_getD {t : Table} {key : String} {i : Nat}
    (h : keyIdx t key = some i) (r : Row) : keyAt t.cols key r = r.getD i none := by
  unfold keyAt cellVal
  unfold keyIdx at h
  rw [h]

/-! ## Lemmas about de-duplication -/

theorem dedupeAux_sublist (i : Nat) :
    ∀ (rows : List Row) (seen : List (Option String)),
      (dedupeAux i seen rows).Sublist rows := by
  intro rows
  induction rows with
  | nil => intro seen; simp [dedupeAux]
  | cons r rs ih =>
    intro seen
    simp only [dedupeAux]
    by_cases h : r.getD i none ∈ seen
    · simp only [if_pos h]
      exact (ih seen).trans (List.sublist_cons_self r rs)
    · simp only [if_neg h]
      exact (ih _).cons₂ r

theorem dedupeAux_keys (i : Nat) :
    ∀ (rows : List Row) (seen : List (Option String)),
      ((dedupeAux i seen rows).map (fun r => r.getD i none)).Nodup ∧
      ∀ r ∈ dedupeAux i seen rows, r.getD i none ∉ seen := by
  intro rows
  induction rows with
  | nil => intro seen; simp [dedupeAux]
  | cons r rs ih =>
    intro seen
    simp only [dedupeAux]
    by_cases h : r.getD i none ∈ seen
    · simp only [if_pos h]; exact ih seen
    · simp only [if_neg h]
      obtain ⟨hnd, hns⟩ := ih (r.getD i none :: seen)
      refine ⟨?_, ?_⟩
      · simp only [List.map_cons, List.nodup_cons]
        refine ⟨?_, hnd⟩
        intro hmem
        obtain ⟨r2, hr2, hk⟩ := List.mem_map.mp hmem
        exact (hns r2 hr2) (hk ▸ List.mem_cons_self _ _)
      · intro r2 hr2
        rcases List.mem_cons.mp hr2 with rfl | h2
        · exact h
        · exact fun hin => hns r2 h2 (List.mem_cons_of_mem _ hin)

theorem dedupeAux_complete (i : Nat) :
    ∀ (rows : List Row) (seen : List (Option String)) (r : Row), r ∈ rows →
      r.getD i none ∈ seen ∨
        ∃ r2 ∈ dedupeAux i seen rows, r2.getD i none = r.getD i none := by
  intro rows
  induction rows with
  | nil => intro seen r hr; cases hr
  | cons a rs ih =>
    intro seen r hr
    simp only [dedupeAux]
    by_cases h : a.getD i none ∈ seen
    · simp only [if_pos h]
      rcases List.mem_cons.mp hr with rfl | hr2
      · exact Or.inl h
      · exact ih seen r hr2
    · simp only [if_neg h]
      rcases List.mem_cons.mp hr with rfl | hr2
      · exact Or.inr ⟨_, List.mem_cons_self _ _, rfl⟩
      · rcases ih (a.getD i none :: seen) r hr2 with hseen | ⟨r2, hr2m, hk⟩
        · rcases List.mem_cons.mp hseen with heq | hseen2
          · exact Or.inr ⟨a, List.mem_cons_self _ _, heq.symm⟩
          · exact Or.inl hseen2
        · exact Or.inr ⟨r2, List.mem_cons_of_mem _ hr2m, hk⟩

theorem dedupeAux_first (i : Nat) :
    ∀ (rows : List Row) (seen : List (Option String)) (r : Row),
      r ∈ dedupeAux i seen rows →
      ∃ pre post, rows = pre ++ r :: post ∧ r.getD i none ∉ seen ∧
        ∀ r2 ∈ pre, r2.getD i none ≠ r.getD i none ∨ r2.getD i none ∈ seen := by
  intro rows
  induction rows with
  | nil => intro seen r hr; simp [dedupeAux] at hr
  | cons a rs ih =>
    intro seen r hr
    simp only [dedupeAux] at hr
    by_cases h : a.getD i none ∈ seen
    · rw [if_pos h] at hr
      obtain ⟨pre, post, heq, hns, hpre⟩ := ih seen r hr
      refine ⟨a :: pre, post, by rw [List.cons_append, heq], hns, ?_⟩
      intro r2 hr2
      rcases List.mem_cons.mp hr2 with rfl | h2
      · exact Or.inr h
      · exact hpre r2 h2
    · rw [if_neg h] at hr
      rcases List.mem_cons.mp hr with rfl | hr2
      · exact ⟨[], rs, rfl, h, by intro r2 hr2; cases hr2⟩
      · obtain ⟨pre, post, heq, hns, hpre⟩ := ih (a.getD i none :: seen) r hr2
        have hne2 : a.getD i none ≠ r.getD i none := by
          intro he
          exact hns (he ▸ List.mem_cons_self _ _)
        refine ⟨a :: pre, post, by rw [List.cons_append, heq], ?_, ?_⟩
        · exact fun hin => hns (List.mem_cons_of_mem _ hin)
        · intro r2 hr2m
          rcases List.mem_cons.mp hr2m with rfl | h2
          · exact Or.inl hne2
          · rcases hpre r2 h2 with hne | hin
            · exact Or.inl hne
            · rcases List.mem_cons.mp hin with heq2 | hin2
              · exact Or.inl (by rw [heq2]; exact hne2)
              · exact Or.inr hin2

theorem dedupeAux_of_nodup (i : Nat) :
    ∀ (rows : List Row) (seen : List (Option String)),
      ((rows.map (fun r => r.getD i none)).Nodup) →
      (∀ r ∈ rows, r.getD i none ∉ seen) →
      dedupeAux i seen rows = rows := by
  intro rows
  induction rows with
  | nil => intro seen _ _; rfl
  | cons a rs ih =>
    intro seen hnd hns
    simp only [List.map_cons, List.nodup_cons] at hnd
    simp only [dedupeAux]
    rw [if_neg (hns a (List.mem_cons_self _ _))]
    congr 1
    apply ih _ hnd.2
    intro r hr hmem
    rcases List.mem_cons.mp hmem with heq | hseen
    · exact hnd.1 (by rw [← heq]; exact List.mem_map_of_mem _ hr)
    · exact hns r (List.mem_cons_of_mem _ hr) hseen

theorem countP_beq_le_one {β : Type} [BEq β] [LawfulBEq β] (b : β) :
    ∀ (l : List β), l.Nodup → l.countP (fun x => x == b) ≤ 1 := by
  intro l
  induction l with
  | nil => intro; simp
  | cons a as ih =>
    intro hnd
    simp only [List.nodup_cons] at hnd
    rw [List.countP_cons]
    by_cases hab : a = b
    · have hz : as.countP (fun x => x == b) = 0 := by
        rw [List.countP_eq_zero]
        intro x hx
        simp only [beq_iff_eq]
        intro hxb
        apply hnd.1
        rw [hab, ← hxb]
        exact hx
      simp [hz, hab]
    · simp only [beq_iff_eq, hab]
      simpa using ih hnd.2

/-! ## Lemmas about the sort relation -/

theorem lexLe_total : ∀ (l m : List Char), lexLe l m = true ∨ lexLe m l = true := by
  intro l
  induction l with
  | nil => intro m; exact Or.inl rfl
  | cons a as ih =>
    intro m
    cases m with
    | nil => exact Or.inr rfl
    | cons b bs =>
      simp only [lexLe]
      by_cases hab : a.toNat = b.toNat
      · rw [if_pos hab, if_pos hab.symm]
        exact ih bs
      · rw [if_neg hab, if_neg (fun h => hab h.symm)]
        rcases Nat.lt_or_ge a.toNat b.toNat with h | h
        · exact Or.inl (by simpa using h)
        · have hba : b.toNat < a.toNat :=
            Nat.lt_of_le_of_ne h (fun he => hab he.symm)
          exact Or.inr (by simpa using hba)

theorem lexLe_trans :
    ∀ (l m n : List Char), lexLe l m = true → lexLe m n = true → lexLe l n = true := by
  intro l
  induction l with
  | nil => intro m n _ _; rfl
  | cons a as ih =>
    intro m n h1 h2
    cases m with
    | nil => simp [lexLe] at h1
    | cons b bs =>
      cases n with
      | nil => simp [lexLe] at h2
      | cons c cs =>
        simp only [lexLe] at h1 h2 ⊢
        by_cases hab : a.toNat = b.toNat
        · rw [if_pos hab] at h1
          by_cases hbc : b.toNat = c.toNat
          · rw [if_pos hbc] at h2
            rw [if_pos (hab.trans hbc)]
            exact ih bs cs h1 h2
          · rw [if_neg hbc] at h2
            have hlt : b.toNat < c.toNat := by simpa using h2
            have hac : a.toNat ≠ c.toNat := by omega
            rw [if_neg hac]
            simp only [decide_eq_true_eq]
            omega
        · rw [if_neg hab] at h1
          have hlt1 : a.toNat < b.toNat := by simpa using h1
          by_cases hbc : b.toNat = c.toNat
          · have hac : a.toNat ≠ c.toNat := by omega
            rw [if_neg hac]
            simp only [decide_eq_true_eq]
            omega
          · rw [if_neg hbc] at h2
            have hlt2 : b.toNat < c.toNat := by simpa using h2
            have hac : a.toNat ≠ c.toNat := by omega
            rw [if_neg hac]
            simp only [decide_eq_true_eq]
            omega

/-! ## Claim C6: file discovery -/

/-- C6: discovery returns exactly the names carrying one of the 8 supported
extensions, excluding `~$`-prefixed lock files and names whose stem contains
the `_Appended_data` marker, sorted by the lower-cased name; in particular
`MyData_Appended_data.csv` and `~$Book1.xlsx` are both excluded. -/
theorem discover_spec (names : List String) (n : String) :
    (n ∈ discover_data_files names ↔
      n ∈ names ∧ hasSupportedExtension n = true ∧
        isLockFile n = false ∧ isPriorOutput n = false) ∧
    (List.Sorted lowerLe (discover_data_files names)) ∧
    (discover_data_files
        ["MyData_Appended_data.csv", "~$Book1.xlsx", "b.csv", "A.txt"] =
      ["A.txt", "b.csv"]) := by
  refine ⟨?_, ?_, by decide⟩
  · unfold discover_data_files
    simp only [List.mem_insertionSort, List.mem_filter, List.mem_flatMap,
      hasSupportedExtension, List.any_eq_true, Bool.and_eq_true,
      Bool.not_eq_true']
    constructor
    · rintro ⟨⟨e, he, hn, hm, hl⟩, hp⟩
      exact ⟨hn, ⟨e, he, hm⟩, hl, hp⟩
    · rintro ⟨hn, ⟨e, he, hm⟩, hl, hp⟩
      exact ⟨⟨e, he, hn, hm, hl⟩, hp⟩
  · haveI : IsTotal String lowerLe := ⟨fun a b => lexLe_total _ _⟩
    haveI : IsTrans String lowerLe := ⟨fun a b c h1 h2 => lexLe_trans _ _ _ h1 h2⟩
    exact List.sorted_insertionSort lowerLe _

/-! ## Claim C4: exit codes (the wrapper swallows `sys.exit`) -/

/-- C4 is contradicted by the code: `main()` does call `sys.exit(1)` when no
supported files are found, when no file is readable/non-empty, and when
deduplication was requested but no valid column was selected (writing no
output in those cases), but the `__main__` wrapper catches the resulting
`SystemExit` with `except SystemExit: pass`, so the interpreter afterwards
terminates normally: the observed process exit status is 0 on every path. -/
theorem exit_code_swallowed :
    ((mainRun [] [] false none).outcome = Outcome.exitReq 1 ∧
      (mainRun [] [] false none).wroteOutput = false) ∧
    ((mainRun ["a.csv"] [] false none).outcome = Outcome.exitReq 1 ∧
      (mainRun ["a.csv"] [] false none).wroteOutput = false) ∧
    ((mainRun ["a.csv"] [⟨["k"], [[some "1"]]⟩] true none).outcome = Outcome.exitReq 1 ∧
      (mainRun ["a.csv"] [⟨["k"], [[some "1"]]⟩] true none).wroteOutput = false) ∧
    (∀ (files : List String) (tables : List Table) (doDedupe : Bool)
        (selected : Option String),
      processExitCode (mainRun files tables doDedupe selected) = 0) := by
  refine ⟨⟨rfl, rfl⟩, ⟨rfl, rfl⟩, ⟨rfl, rfl⟩, ?_⟩
  intro files tables doDedupe selected
  cases hm : (mainRun files tables doDedupe selected).outcome <;>
    simp [processExitCode, hm]

/-! ## Claim C5: delimiter sniffing -/

/-- C5: the sniffer returns comma for `"a,b,c\n1,2,3\n"`, semicolon for
`"a;b;c\n1;2;3\n"`, and comma for an empty sample; a failed read and a failed
inference both degrade to the comma fallback, and the result is always one of
the four candidate delimiters, so delimiter sniffing never fails the
pipeline. -/
theorem sniff_delimiter_spec :
    (sniff_delimiter (some "a,b,c\n1,2,3\n") = ',') ∧
    (sniff_delimiter (some "a;b;c\n1;2;3\n") = ';') ∧
    (sniff_delimiter (some "") = ',') ∧
    (sniff_delimiter none = ',') ∧
    (∀ sample : String, inferDelimiter sample = none →
      sniff_delimiter (some sample) = ',') ∧
    (∀ sampleRead : Option String, sniff_delimiter sampleRead ∈ [',', ';', '\t', '|']) := by
  refine ⟨by decide, by decide, by decide, rfl, ?_, ?_⟩
  · intro sample h
    by_cases he : sample = ""
    · simp [sniff_delimiter, he]
    · simp [sniff_delimiter, he, h]
  · intro sampleRead
    cases sampleRead with
    | none => simp [sniff_delimiter]
    | some sample =>
      by_cases he : sample = ""
      · simp [sniff_delimiter, he]
      · simp only [sniff_delimiter, if_neg he]
        cases hd : inferDelimiter sample with
        | none => simp
        | some d =>
          simp only []
          unfold inferDelimiter at hd
          rcases hls : sampleLines sample with _ | ⟨l, ls⟩
          · rw [hls] at hd; cases hd
          · rw [hls] at hd
            exact List.mem_of_find?_eq_some hd

/-- C5 witness: a sample on which inference fails falls back to comma. -/
theorem sniff_delimiter_spec_witness :
    (inferDelimiter "x" = none) ∧ sniff_delimiter (some "x") = ',' :=
  ⟨by decide, sniff_delimiter_spec.2.2.2.2.1 "x" (by decide)⟩

/-! ## Claim C10: provenance-column clash -/

theorem read_delimited_none (fileName : String) :
    ∀ (parses : List (Option RawTable)),
      (∀ raw : RawTable, some raw ∈ parses →
        "Source_File" ∈ clean_column_names raw.cols) →
      read_delimited_safely fileName parses = none := by
  intro parses
  induction parses with
  | nil => intro; rfl
  | cons p ps ih =>
    intro h
    cases p with
    | none =>
      show read_delimited_safely fileName ps = none
      exact ih (fun raw hm => h raw (List.mem_cons_of_mem _ hm))
    | some raw =>
      have hmem : "Source_File" ∈ clean_column_names raw.cols :=
        h raw (List.mem_cons_self _ _)
      show (match insertProvenance fileName raw with
        | some t => some t
        | none => read_delimited_safely fileName ps) = none
      rw [show insertProvenance fileName raw = none by
        simp [insertProvenance, hmem]]
      exact ih (fun raw2 hm => h raw2 (List.mem_cons_of_mem _ hm))

/-- C10: for a file whose cleaned column headers already contain
`Source_File`, prepending the provenance column raises (pandas
`DataFrame.insert` refuses an existing column), so both readers return absent
and the file is skipped, rather than producing a table with a duplicated or
renamed provenance column. -/
theorem read_absent_on_provenance_clash (fileName : String)
    (parses : List (Option RawTable)) (parse : Option RawTable)
    (hparses : ∀ raw : RawTable, some raw ∈ parses →
      "Source_File" ∈ clean_column_names raw.cols)
    (hparse : ∀ raw : RawTable, parse = some raw →
      "Source_File" ∈ clean_column_names raw.cols) :
    read_delimited_safely fileName parses = none ∧
    read_excel_safely fileName parse = none := by
  refine ⟨read_delimited_none fileName parses hparses, ?_⟩
  cases parse with
  | none => rfl
  | some raw =>
    have hmem : "Source_File" ∈ clean_column_names raw.cols := hparse raw rfl
    simp [read_excel_safely, insertProvenance, hmem]

/-- C10 witness: a one-column file whose header is already `Source_File` is
skipped by both readers. -/
theorem read_absent_on_provenance_clash_witness :
    ((∀ raw : RawTable, some raw ∈ [some (RawTable.mk ["Source_File"] [])] →
        "Source_File" ∈ clean_column_names raw.cols) ∧
      (∀ raw : RawTable, (some (RawTable.mk ["Source_File"] []) = some raw) →
        "Source_File" ∈ clean_column_names raw.cols)) ∧
    (read_delimited_safely "a.csv" [some (RawTable.mk ["Source_File"] [])] = none ∧
      read_excel_safely "b.xlsx" (some (RawTable.mk ["Source_File"] [])) = none) :=
  have h1 : ∀ raw : RawTable, some raw ∈ [some (RawTable.mk ["Source_File"] [])] →
      "Source_File" ∈ clean_column_names raw.cols := by
    intro raw hm
    rcases List.mem_singleton.mp hm with h
    cases Option.some.inj h
    decide
  have h2 : ∀ raw : RawTable, (some (RawTable.mk ["Source_File"] []) = some raw) →
      "Source_File" ∈ clean_column_names raw.cols := by
    intro raw hm
    cases Option.some.inj hm
    decide
  ⟨⟨h1, h2⟩,
    ⟨(read_absent_on_provenance_clash "a.csv" [some (RawTable.mk ["Source_File"] [])]
        (some (RawTable.mk ["Source_File"] [])) h1 h2).1,
      (read_absent_on_provenance_clash "b.xlsx" [some (RawTable.mk ["Source_File"] [])]
        (some (RawTable.mk ["Source_File"] [])) h1 h2).2⟩⟩

/-! ## Lemmas about merging -/

theorem colUnion_mem (c : String) (cs : List String) :
    ∀ (acc : List String), c ∈ colUnion acc cs ↔ c ∈ acc ∨ c ∈ cs := by
  induction cs with
  | nil => intro acc; simp [colUnion]
  | cons x xs ih =>
    intro acc
    simp only [colUnion, List.foldl_cons] at ih ⊢
    by_cases hx : x ∈ acc
    · rw [if_pos hx, ih]
      constructor
      · rintro (h | h)
        · exact Or.inl h
        · exact Or.inr (List.mem_cons_of_mem _ h)
      · rintro (h | h)
        · exact Or.inl h
        · rcases List.mem_cons.mp h with rfl | h2
          · exact Or.inl hx
          · exact Or.inr h2
    · rw [if_neg hx, ih]
      simp only [List.mem_append, List.mem_singleton, List.mem_cons]
      tauto

theorem colUnion_nodup (cs : List String) :
    ∀ (acc : List String), acc.Nodup → (colUnion acc cs).Nodup := by
  induction cs with
  | nil => intro acc h; simpa [colUnion] using h
  | cons x xs ih =>
    intro acc h
    simp only [colUnion, List.foldl_cons] at ih ⊢
    by_cases hx : x ∈ acc
    · rw [if_pos hx]; exact ih acc h
    · rw [if_neg hx]
      apply ih
      simp [List.nodup_append, h, hx]

theorem mergeCols_foldl (ts : List Table) :
    ∀ (acc : List String),
      ts.foldl (fun a t => colUnion a t.cols) acc =
        (ts.flatMap (fun t => t.cols)).foldl
          (fun a c => if c ∈ a then a else a ++ [c]) acc := by
  induction ts with
  | nil => intro acc; rfl
  | cons t ts2 ih =>
    intro acc
    rw [List.flatMap_cons, List.foldl_append, List.foldl_cons]
    exact ih _

theorem mergeCols_eq_firstSeen (ts : List Table) :
    mergeCols ts = firstSeen (ts.flatMap (fun t => t.cols)) :=
  mergeCols_foldl ts []

theorem firstSeen_mem (c : String) (l : List String) : c ∈ firstSeen l ↔ c ∈ l := by
  have := colUnion_mem c l []
  simpa [firstSeen, colUnion] using this

theorem mergeCols_mem (c : String) (ts : List Table) :
    c ∈ mergeCols ts ↔ ∃ t ∈ ts, c ∈ t.cols := by
  rw [mergeCols_eq_firstSeen, firstSeen_mem, List.mem_flatMap]

theorem mergeCols_nodup (ts : List Table) : (mergeCols ts).Nodup := by
  have := colUnion_nodup (ts.flatMap (fun t => t.cols)) [] List.nodup_nil
  rw [mergeCols_eq_firstSeen]
  simpa [firstSeen, colUnion] using this

theorem cellVal_map (f : String → Option String) (c : String) :
    ∀ (u : List String), c ∈ u → cellVal u (u.map f) c = f c := by
  intro u
  induction u with
  | nil => intro h; cases h
  | cons x xs ih =>
    intro hc
    by_cases hx : x = c
    · subst hx
      simp [cellVal, findIdxOf]
    · have hc2 : c ∈ xs := by
        rcases List.mem_cons.mp hc with rfl | h
        · exact absurd rfl hx
        · exact h
      obtain ⟨i, hi⟩ := findIdxOf_mem hc2
      have hrec := ih hc2
      simp only [cellVal, hi] at hrec
      simp only [cellVal, findIdxOf, if_neg hx, hi, Option.map_some', List.map_cons]
      simpa [List.getD_cons_succ] using hrec

theorem cellVal_not_mem (cols : List String) (r : Row) (c : String) (h : c ∉ cols) :
    cellVal cols r c = none := by
  simp [cellVal, findIdxOf_eq_none h]

theorem alignRow_present (cols u : List String) (r : Row) (c : String) (hc : c ∈ u) :
    cellVal u (alignRow cols u r) c = cellVal cols r c := by
  unfold alignRow
  exact cellVal_map _ c u hc

theorem alignRow_missing (cols u : List String) (r : Row) (c : String) (h : c ∉ cols) :
    cellVal u (alignRow cols u r) c = none := by
  by_cases hc : c ∈ u
  · rw [alignRow_present cols u r c hc]
    exact cellVal_not_mem cols r c h
  · exact cellVal_not_mem u _ c hc

theorem flatMap_align_length (u : List String) (ts : List Table) :
    (ts.flatMap (fun t => t.rows.map (alignRow t.cols u))).length =
      (ts.map (fun t => t.rows.length)).sum := by
  induction ts with
  | nil => rfl
  | cons t ts2 ih =>
    simp only [List.flatMap_cons, List.length_append, List.length_map, List.map_cons,
      List.sum_cons, ih]

theorem mergeTables_rows_length (ts : List Table) :
    (mergeTables ts).rows.length = (ts.map (fun t => t.rows.length)).sum :=
  flatMap_align_length (mergeCols ts) ts

/-! ## Claim C1: outer-union merge -/

/-- C1: merging a sequence of per-file tables yields one table whose column
list is the first-seen-ordered union of the inputs' column names (duplicate
free, containing exactly the names occurring in some input), whose rows are
the concatenation, in input order, of the input tables' rows reindexed to the
merged column list, where a reindexed row agrees with its origin table on
every column its origin table has and holds the missing marker on every
column it lacks; in particular merging a table with columns `x,y` and one
with columns `y,z` yields columns `x,y,z`, the row from the first missing
`z` and the row from the second missing `x`. -/
theorem merge_outer_union (ts : List Table) (t : Table) (ht : t ∈ ts)
    (r : Row) (hr : r ∈ t.rows) (c : String) :
    ((mergeTables ts).cols = firstSeen (ts.flatMap (fun t2 => t2.cols))) ∧
    ((mergeTables ts).cols.Nodup) ∧
    (∀ c2, c2 ∈ (mergeTables ts).cols ↔ ∃ t2 ∈ ts, c2 ∈ t2.cols) ∧
    ((mergeTables ts).rows =
      ts.flatMap (fun t2 => t2.rows.map (alignRow t2.cols (mergeTables ts).cols))) ∧
    ((mergeTables ts).rows.length = (ts.map (fun t2 => t2.rows.length)).sum) ∧
    (alignRow t.cols (mergeTables ts).cols r ∈ (mergeTables ts).rows) ∧
    (c ∈ t.cols →
      cellVal (mergeTables ts).cols (alignRow t.cols (mergeTables ts).cols r) c =
        cellVal t.cols r c) ∧
    (c ∉ t.cols →
      cellVal (mergeTables ts).cols (alignRow t.cols (mergeTables ts).cols r) c = none) ∧
    (mergeTables [⟨["x", "y"], [[some "1", some "2"]]⟩,
        ⟨["y", "z"], [[some "3", some "4"]]⟩] =
      ⟨["x", "y", "z"], [[some "1", some "2", none], [none, some "3", some "4"]]⟩) := by
  have hcols : (mergeTables ts).cols = mergeCols ts := rfl
  refine ⟨by rw [hcols]; exact mergeCols_eq_firstSeen ts,
    by rw [hcols]; exact mergeCols_nodup ts,
    fun c2 => by rw [hcols]; exact mergeCols_mem c2 ts,
    rfl,
    mergeTables_rows_length ts,
    ?_, ?_, ?_, by decide⟩
  · show alignRow t.cols (mergeCols ts) r ∈ (mergeTables ts).rows
    unfold mergeTables
    exact List.mem_flatMap.mpr ⟨t, ht, List.mem_map_of_mem _ hr⟩
  · intro hc
    rw [hcols]
    exact alignRow_present t.cols (mergeCols ts) r c
      ((mergeCols_mem c ts).mpr ⟨t, ht, hc⟩)
  · intro hc
    rw [hcols]
    exact alignRow_missing t.cols (mergeCols ts) r c hc

/-- C1 witness: the theorem applied to the two concrete tables; a row of the
first table holds the missing marker under column `z`. -/
theorem merge_outer_union_witness :
    ((Table.mk ["x", "y"] [[some "1", some "2"]] ∈
        [Table.mk ["x", "y"] [[some "1", some "2"]],
          Table.mk ["y", "z"] [[some "3", some "4"]]]) ∧
      ([some "1", some "2"] ∈ (Table.mk ["x", "y"] [[some "1", some "2"]]).rows) ∧
      ("z" ∉ (Table.mk ["x", "y"] [[some "1", some "2"]]).cols)) ∧
    cellVal (mergeTables [Table.mk ["x", "y"] [[some "1", some "2"]],
        Table.mk ["y", "z"] [[some "3", some "4"]]]).cols
      (alignRow ["x", "y"]
        (mergeTables [Table.mk ["x", "y"] [[some "1", some "2"]],
          Table.mk ["y", "z"] [[some "3", some "4"]]]).cols
        [some "1", some "2"]) "z" = none :=
  ⟨⟨by decide, by decide, by decide⟩,
    (merge_outer_union
      [Table.mk ["x", "y"] [[some "1", some "2"]],
        Table.mk ["y", "z"] [[some "3", some "4"]]]
      (Table.mk ["x", "y"] [[some "1", some "2"]])
      (by decide) [some "1", some "2"] (by decide) "z").2.2.2.2.2.2.2.1 (by decide)⟩

/-! ## Claim C2: first-occurrence-wins de-duplication -/

/-- C2: for every merged table and every key column present in it, dedupe
keeps all original columns, its surviving rows are a subsequence of the input
rows (so relative order is preserved and rows are unchanged), no two survivors
share a key value, every input key value is represented by a survivor, every
survivor is the first row of the input carrying its key value (so a row is
retained iff its key has not occurred in a previously retained row), and the
reported removed count is rows-before minus rows-after; in particular rows
`[(k=1,v=a),(k=2,v=b),(k=1,v=c)]` deduped on `k` yield
`[(k=1,v=a),(k=2,v=b)]` with a removed count of 1. -/
theorem dedupe_first_occurrence_wins (t : Table) (key : String) (hk : key ∈ t.cols) :
    ((drop_duplicates t key).1.cols = t.cols) ∧
    ((drop_duplicates t key).1.rows.Sublist t.rows) ∧
    (((drop_duplicates t key).1.rows.map (keyAt t.cols key)).Nodup) ∧
    (∀ r ∈ t.rows, ∃ r2 ∈ (drop_duplicates t key).1.rows,
      keyAt t.cols key r2 = keyAt t.cols key r) ∧
    (∀ r ∈ (drop_duplicates t key).1.rows,
      ∃ pre post, t.rows = pre ++ r :: post ∧
        ∀ r2 ∈ pre, keyAt t.cols key r2 ≠ keyAt t.cols key r) ∧
    ((drop_duplicates t key).2 =
      t.rows.length - (drop_duplicates t key).1.rows.length) ∧
    (drop_duplicates ⟨["k", "v"],
        [[some "1", some "a"], [some "2", some "b"], [some "1", some "c"]]⟩ "k" =
      (⟨["k", "v"], [[some "1", some "a"], [some "2", some "b"]]⟩, 1)) := by
  obtain ⟨i, hi⟩ := findIdxOf_mem hk
  have hki : keyIdx t key = some i := hi
  have hget : ∀ r : Row, keyAt t.cols key r = r.getD i none :=
    fun r => keyAt_eq_getD hki r
  have hdd : drop_duplicates t key =
      (⟨t.cols, dedupeAux i [] t.rows⟩,
        t.rows.length - (dedupeAux i [] t.rows).length) := by
    unfold drop_duplicates
    rw [hki]
  rw [hdd]
  refine ⟨rfl, dedupeAux_sublist i t.rows [], ?_, ?_, ?_, rfl, by decide⟩
  · have := (dedupeAux_keys i t.rows []).1
    have hmap : (dedupeAux i [] t.rows).map (keyAt t.cols key) =
        (dedupeAux i [] t.rows).map (fun r => r.getD i none) :=
      List.map_congr_left (fun r _ => hget r)
    rw [hmap]
    exact this
  · intro r hr
    rcases dedupeAux_complete i t.rows [] r hr with habs | ⟨r2, hr2, hkk⟩
    · cases habs
    · exact ⟨r2, hr2, by rw [hget, hget, hkk]⟩
  · intro r hr
    obtain ⟨pre, post, heq, _, hpre⟩ := dedupeAux_first i t.rows [] r hr
    refine ⟨pre, post, heq, ?_⟩
    intro r2 hr2
    rcases hpre r2 hr2 with hne | habs
    · rw [hget, hget]; exact hne
    · cases habs

/-- C2 witness: the theorem applied to the concrete three-row table. -/
theorem dedupe_first_occurrence_wins_witness :
    ("k" ∈ (Table.mk ["k", "v"]
        [[some "1", some "a"], [some "2", some "b"], [some "1", some "c"]]).cols) ∧
    (drop_duplicates ⟨["k", "v"],
        [[some "1", some "a"], [some "2", some "b"], [some "1", some "c"]]⟩ "k" =
      (⟨["k", "v"], [[some "1", some "a"], [some "2", some "b"]]⟩, 1)) :=
  ⟨by decide,
    (dedupe_first_occurrence_wins ⟨["k", "v"],
      [[some "1", some "a"], [some "2", some "b"], [some "1", some "c"]]⟩ "k"
      (by decide)).2.2.2.2.2.2⟩

/-! ## Claim C7: missing-key rows collapse -/

/-- C7: in dedupe, a missing key cell is one specific value (pandas compares
NaN keys equal in `drop_duplicates`), so at most one surviving row has a
missing key, and when some input row has a missing key the survivor carrying
a missing key is the first such row of the input. -/
theorem dedupe_missing_key_collapses (t : Table) (key : String) (hk : key ∈ t.cols) :
    ((drop_duplicates t key).1.rows.countP
      (fun r => keyAt t.cols key r == none) ≤ 1) ∧
    (∀ r ∈ t.rows, keyAt t.cols key r = none →
      ∃ r2 ∈ (drop_duplicates t key).1.rows, keyAt t.cols key r2 = none ∧
        ∃ pre post, t.rows = pre ++ r2 :: post ∧
          ∀ r3 ∈ pre, keyAt t.cols key r3 ≠ none) := by
  obtain ⟨i, hi⟩ := findIdxOf_mem hk
  have hki : keyIdx t key = some i := hi
  have hget : ∀ r : Row, keyAt t.cols key r = r.getD i none :=
    fun r => keyAt_eq_getD hki r
  have hdd : (drop_duplicates t key).1.rows = dedupeAux i [] t.rows := by
    unfold drop_duplicates
    rw [hki]
  rw [hdd]
  constructor
  · have hnd : ((dedupeAux i [] t.rows).map (fun r => r.getD i none)).Nodup :=
      (dedupeAux_keys i t.rows []).1
    have hcp : (dedupeAux i [] t.rows).countP (fun r => keyAt t.cols key r == none) =
        ((dedupeAux i [] t.rows).map (fun r => r.getD i none)).countP (fun x => x == none) := by
      rw [List.countP_map]
      apply List.countP_congr
      intro r _
      simp [hget r, Function.comp]
    rw [hcp]
    exact countP_beq_le_one none _ hnd
  · intro r hr hnone
    rcases dedupeAux_complete i t.rows [] r hr with habs | ⟨r2, hr2, hkk⟩
    · cases habs
    · have hr2none : keyAt t.cols key r2 = none := by
        rw [hget] at hnone ⊢
        rw [hkk, hnone]
      refine ⟨r2, hr2, hr2none, ?_⟩
      obtain ⟨pre, post, heq, _, hpre⟩ := dedupeAux_first i t.rows [] r2 hr2
      refine ⟨pre, post, heq, ?_⟩
      intro r3 hr3
      rcases hpre r3 hr3 with hne | habs
      · have h2 : r2.getD i none = none := by rw [← hget r2]; exact hr2none
        rw [hget]
        exact fun he => hne (he.trans h2.symm)
      · cases habs

/-- C7 witness: a table whose two rows both lack the key value collapses to
its first row. -/
theorem dedupe_missing_key_collapses_witness :
    ("k" ∈ (Table.mk ["k", "v"] [[none, some "a"], [none, some "b"]]).cols) ∧
    ((drop_duplicates ⟨["k", "v"], [[none, some "a"], [none, some "b"]]⟩ "k").1.rows.countP
      (fun r => keyAt ["k", "v"] "k" r == none) ≤ 1) :=
  ⟨by decide,
    (dedupe_missing_key_collapses
      ⟨["k", "v"], [[none, some "a"], [none, some "b"]]⟩ "k" (by decide)).1⟩

/-! ## Claim C8: idempotence of de-duplication -/

/-- C8: a table with pairwise-distinct key values in the chosen column is
returned identically by dedupe, with a removed count of 0. -/
theorem dedupe_idempotent (t : Table) (key : String) (hk : key ∈ t.cols)
    (hnd : (t.rows.map (keyAt t.cols key)).Nodup) :
    drop_duplicates t key = (t, 0) := by
  obtain ⟨i, hi⟩ := findIdxOf_mem hk
  have hki : keyIdx t key = some i := hi
  have hget : ∀ r : Row, keyAt t.cols key r = r.getD i none :=
    fun r => keyAt_eq_getD hki r
  have hnd2 : (t.rows.map (fun r => r.getD i none)).Nodup := by
    have hmap : t.rows.map (keyAt t.cols key) = t.rows.map (fun r => r.getD i none) :=
      List.map_congr_left (fun r _ => hget r)
    rw [← hmap]
    exact hnd
  have hrows : dedupeAux i [] t.rows = t.rows :=
    dedupeAux_of_nodup i t.rows [] hnd2 (by intro r _ h; cases h)
  unfold drop_duplicates
  rw [hki]
  simp only [hrows, Nat.sub_self]

/-- C8 witness: a two-row table with distinct keys is returned unchanged. -/
theorem dedupe_idempotent_witness :
    (("k" ∈ (Table.mk ["k"] [[some "1"], [some "2"]]).cols) ∧
      ((Table.mk ["k"] [[some "1"], [some "2"]]).rows.map
        (keyAt ["k"] "k")).Nodup) ∧
    drop_duplicates ⟨["k"], [[some "1"], [some "2"]]⟩ "k" =
      (⟨["k"], [[some "1"], [some "2"]]⟩, 0) :=
  ⟨⟨by decide, by decide⟩,
    dedupe_idempotent ⟨["k"], [[some "1"], [some "2"]]⟩ "k" (by decide) (by decide)⟩

/-! ## Lemmas about header cleaning -/

theorem sfx_data (n : String) (k : Nat) :
    (sfx n k).data = n.data ++ '.' :: toDigitsRec k := by
  unfold sfx
  rw [toString_nat_eq]
  simp [String.data_append, repr_data]

theorem sfx_ne_dotFree {m : String} (n : String) (k : Nat) (hm : dotFree m) :
    sfx n k ≠ m := by
  intro he
  apply hm
  rw [← he, sfx_data]
  simp

theorem append_dot_inj :
    ∀ (l1 : List Char) {l2 r1 r2 : List Char}, '.' ∉ l1 → '.' ∉ l2 →
      l1 ++ '.' :: r1 = l2 ++ '.' :: r2 → l1 = l2 ∧ r1 = r2 := by
  intro l1
  induction l1 with
  | nil =>
    intro l2 r1 r2 _ h2 he
    cases l2 with
    | nil => simpa using he
    | cons c cs =>
      exfalso
      simp only [List.nil_append, List.cons_append, List.cons.injEq] at he
      exact h2 (by rw [← he.1]; exact List.mem_cons_self _ _)
  | cons a as ih =>
    intro l2 r1 r2 h1 h2 he
    cases l2 with
    | nil =>
      exfalso
      simp only [List.cons_append, List.nil_append, List.cons.injEq] at he
      exact h1 (by rw [he.1]; exact List.mem_cons_self _ _)
    | cons b bs =>
      simp only [List.cons_append, List.cons.injEq] at he
      have h1' : '.' ∉ as := fun hm => h1 (List.mem_cons_of_mem _ hm)
      have h2' : '.' ∉ bs := fun hm => h2 (List.mem_cons_of_mem _ hm)
      obtain ⟨hl, hr⟩ := ih h1' h2' he.2
      exact ⟨by rw [he.1, hl], hr⟩

theorem sfx_inj {n1 n2 : String} {k1 k2 : Nat}
    (h1 : dotFree n1) (h2 : dotFree n2) (he : sfx n1 k1 = sfx n2 k2) :
    n1 = n2 ∧ k1 = k2 := by
  have hd := congrArg String.data he
  rw [sfx_data, sfx_data] at hd
  obtain ⟨hl, hr⟩ := append_dot_inj n1.data h1 h2 hd
  refine ⟨String.toList_inj.mp hl, ?_⟩
  calc k1 = digitsVal (toDigitsRec k1) := (digitsVal_toDigitsRec k1).symm
  _ = digitsVal (toDigitsRec k2) := by rw [hr]
  _ = k2 := digitsVal_toDigitsRec k2

theorem lookupSeen_eq_none :
    ∀ (seen : List (String × Nat)) (n : String),
      lookupSeen seen n = none ↔ n ∉ seen.map Prod.fst := by
  intro seen
  induction seen with
  | nil => intro n; simp [lookupSeen]
  | cons p ps ih =>
    intro n
    simp only [lookupSeen, List.map_cons, List.mem_cons]
    by_cases h : p.1 = n
    · simp [h]
    · simp only [if_neg h, ih]
      constructor
      · intro hn
        rintro (he | hm)
        · exact h he.symm
        · exact hn hm
      · intro hn hm
        exact hn (Or.inr hm)

theorem lookupSeen_mem :
    ∀ (seen : List (String × Nat)) (n : String) (k : Nat),
      lookupSeen seen n = some k → (n, k) ∈ seen := by
  intro seen
  induction seen with
  | nil => intro n k h; cases h
  | cons p ps ih =>
    intro n k h
    simp only [lookupSeen] at h
    by_cases hp : p.1 = n
    · rw [if_pos hp] at h
      have hk : p.2 = k := Option.some.inj h
      have : (n, k) = p := by
        rw [← hp, ← hk]
      rw [this]
      exact List.mem_cons_self _ _
    · rw [if_neg hp] at h
      exact List.mem_cons_of_mem _ (ih n k h)

theorem bumpSeen_map_fst (seen : List (String × Nat)) (n : String) :
    (bumpSeen seen n).map Prod.fst = seen.map Prod.fst := by
  unfold bumpSeen
  rw [List.map_map]
  apply List.map_congr_left
  intro p _
  by_cases h : p.1 = n <;> simp [h]

theorem mem_bumpSeen_of_ne {seen : List (String × Nat)} {n : String}
    {p : String × Nat} (hp : p ∈ seen) (hne : p.1 ≠ n) : p ∈ bumpSeen seen n := by
  unfold bumpSeen
  have := List.mem_map_of_mem (fun q => if q.1 = n then (q.1, q.2 + 1) else q) hp
  simpa [hne] using this

theorem mem_bumpSeen_self {seen : List (String × Nat)} {n : String} {k : Nat}
    (hp : (n, k) ∈ seen) : (n, k + 1) ∈ bumpSeen seen n := by
  unfold bumpSeen
  have := List.mem_map_of_mem (fun q => if q.1 = n then (q.1, q.2 + 1) else q) hp
  simpa using this

theorem bumpSeen_dotFree {seen : List (String × Nat)} {n : String}
    (h : ∀ p ∈ seen, dotFree p.1) : ∀ p ∈ bumpSeen seen n, dotFree p.1 := by
  intro p hp
  unfold bumpSeen at hp
  obtain ⟨q, hq, he⟩ := List.mem_map.mp hp
  have : p.1 = q.1 := by
    rw [← he]
    by_cases hqn : q.1 = n <;> simp [hqn]
  rw [this]
  exact h q hq

theorem nodup_fst_eq :
    ∀ {seen : List (String × Nat)}, (seen.map Prod.fst).Nodup →
      ∀ {n : String} {a b : Nat}, (n, a) ∈ seen → (n, b) ∈ seen → a = b := by
  intro seen
  induction seen with
  | nil => intro _ n a b ha; cases ha
  | cons p ps ih =>
    intro hnd n a b ha hb
    simp only [List.map_cons, List.nodup_cons] at hnd
    rcases List.mem_cons.mp ha with ha1 | ha2
    · rcases List.mem_cons.mp hb with hb1 | hb2
      · rw [← ha1] at hb1
        exact (Prod.mk.injEq _ _ _ _ ▸ hb1).2.symm
      · exfalso
        apply hnd.1
        have hn2 : n ∈ List.map Prod.fst ps := List.mem_map_of_mem Prod.fst hb2
        rw [← ha1]
        exact hn2
    · rcases List.mem_cons.mp hb with hb1 | hb2
      · exfalso
        apply hnd.1
        have hn2 : n ∈ List.map Prod.fst ps := List.mem_map_of_mem Prod.fst ha2
        rw [← hb1]
        exact hn2
      · exact ih hnd.2 ha2 hb2

theorem cleanAux_nodup_avoid :
    ∀ (cs : List String) (seen : List (String × Nat)),
      (∀ c ∈ cs, dotFree (strip c)) →
      (∀ p ∈ seen, dotFree p.1) →
      ((seen.map Prod.fst).Nodup) →
      (cleanAux seen cs).Nodup ∧
      (∀ s ∈ cleanAux seen cs, ∀ p ∈ seen,
        s ≠ p.1 ∧ ∀ j ≤ p.2, s ≠ sfx p.1 j) := by
  intro cs
  induction cs with
  | nil =>
    intro seen _ _ _
    exact ⟨List.nodup_nil, by intro s hs; cases hs⟩
  | cons c cs2 ih =>
    intro seen hcs hdf hnd
    have hname : dotFree (strip c) := hcs c (List.mem_cons_self _ _)
    have hcs2 : ∀ c2 ∈ cs2, dotFree (strip c2) :=
      fun c2 hm => hcs c2 (List.mem_cons_of_mem _ hm)
    cases hl : lookupSeen seen (strip c) with
    | some k =>
      have hout : cleanAux seen (c :: cs2) =
          sfx (strip c) (k + 1) :: cleanAux (bumpSeen seen (strip c)) cs2 := by
        simp only [cleanAux, hl]
      have hmem : (strip c, k) ∈ seen := lookupSeen_mem seen (strip c) k hl
      have hdf2 : ∀ p ∈ bumpSeen seen (strip c), dotFree p.1 := bumpSeen_dotFree hdf
      have hnd2 : ((bumpSeen seen (strip c)).map Prod.fst).Nodup := by
        rw [bumpSeen_map_fst]; exact hnd
      obtain ⟨ihnd, ihav⟩ := ih (bumpSeen seen (strip c)) hcs2 hdf2 hnd2
      have hbump : (strip c, k + 1) ∈ bumpSeen seen (strip c) := mem_bumpSeen_self hmem
      rw [hout]
      constructor
      · rw [List.nodup_cons]
        refine ⟨?_, ihnd⟩
        intro hin
        exact (ihav _ hin _ hbump).2 (k + 1) (le_refl _) rfl
      · intro s hs p hp
        rcases List.mem_cons.mp hs with rfl | hs2
        · -- the head output versus an old seen entry
          refine ⟨sfx_ne_dotFree _ _ (hdf p hp), ?_⟩
          intro j hj he
          obtain ⟨hn, hk⟩ := sfx_inj hname (hdf p hp) he
          have hpmem : (strip c, p.2) ∈ seen := by
            have hpe : p = (strip c, p.2) := by
              rw [hn]
            rw [← hpe]
            exact hp
          have hkp : k = p.2 := nodup_fst_eq hnd hmem hpmem
          omega
        · -- a later output versus an old seen entry
          by_cases hpn : p.1 = strip c
          · have hpmem : (strip c, p.2) ∈ seen := by
              have : p = (strip c, p.2) := by
                rw [← hpn]
              rw [← this]
              exact hp
            have hkp : k = p.2 := nodup_fst_eq hnd hmem hpmem
            have := ihav s hs2 _ hbump
            refine ⟨by rw [hpn]; exact this.1, ?_⟩
            intro j hj
            have : j ≤ k + 1 := by omega
            rw [hpn]
            exact (ihav s hs2 _ hbump).2 j this
          · have hpb : p ∈ bumpSeen seen (strip c) := mem_bumpSeen_of_ne hp hpn
            exact ihav s hs2 p hpb
    | none =>
      have hout : cleanAux seen (c :: cs2) =
          strip c :: cleanAux ((strip c, 0) :: seen) cs2 := by
        simp only [cleanAux, hl]
      have hnotin : strip c ∉ seen.map Prod.fst := (lookupSeen_eq_none seen _).mp hl
      have hdf2 : ∀ p ∈ (strip c, 0) :: seen, dotFree p.1 := by
        intro p hp
        rcases List.mem_cons.mp hp with rfl | hp2
        · exact hname
        · exact hdf p hp2
      have hnd2 : (((strip c, 0) :: seen).map Prod.fst).Nodup := by
        simp only [List.map_cons, List.nodup_cons]
        exact ⟨hnotin, hnd⟩
      obtain ⟨ihnd, ihav⟩ := ih ((strip c, 0) :: seen) hcs2 hdf2 hnd2
      rw [hout]
      constructor
      · rw [List.nodup_cons]
        refine ⟨?_, ihnd⟩
        intro hin
        exact (ihav _ hin _ (List.mem_cons_self _ _)).1 rfl
      · intro s hs p hp
        rcases List.mem_cons.mp hs with rfl | hs2
        · refine ⟨?_, ?_⟩
          · intro he
            exact hnotin (he ▸ List.mem_map_of_mem Prod.fst hp)
          · intro j _ he
            exact sfx_ne_dotFree p.1 j hname he.symm
        · exact ihav s hs2 p (List.mem_cons_of_mem _ hp)

/-! ## Claim C3: header cleaning -/

/-- C3 counterexample: the raw headers `["Name", "Name.1", "Name"]` normalize
to `["Name", "Name.1", "Name.1"]` — the repeated `Name` is suffixed to
`Name.1`, which collides with the third header that already carried that
name — so read-time normalization does not produce pairwise-distinct column
names for every input. -/
theorem clean_names_counterexample :
    clean_column_names ["Name", "Name.1", "Name"] = ["Name", "Name.1", "Name.1"] ∧
    ¬ (clean_column_names ["Name", "Name.1", "Name"]).Nodup := by
  constructor
  · decide
  · decide

/-- C3 (amended): when no trimmed input header contains a period (so no raw
header can collide with a generated ordinal suffix), the read-time
normalization — trim, then suffix repeated names with `.1`, `.2`, ... —
produces pairwise-distinct column names; in particular
`["Name", "Name", "Name"]` normalizes to `["Name", "Name.1", "Name.2"]`. -/
theorem clean_names_nodup (cols : List String)
    (h : ∀ c ∈ cols, dotFree (strip c)) :
    (clean_column_names cols).Nodup ∧
    clean_column_names ["Name", "Name", "Name"] = ["Name", "Name.1", "Name.2"] := by
  refine ⟨?_, by decide⟩
  exact (cleanAux_nodup_avoid cols [] h (by intro p hp; cases hp) List.nodup_nil).1

/-- C3 witness: the amended theorem applied to the three-fold repeated
header. -/
theorem clean_names_nodup_witness :
    (∀ c ∈ ["Name", "Name", "Name"], dotFree (strip c)) ∧
    (clean_column_names ["Name", "Name", "Name"]).Nodup :=
  ⟨by decide, (clean_names_nodup ["Name", "Name", "Name"] (by decide)).1⟩

/-! ## Lemmas about timestamp fields -/

theorem pad2_len_digits {n : Nat} (h : n < 100) :
    (pad2 n).data.length = 2 ∧ ∀ c ∈ (pad2 n).data, c.isDigit = true := by
  unfold pad2
  by_cases h10 : n < 10
  · rw [if_pos h10, toString_nat_eq]
    constructor
    · simp [String.data_append, repr_data, toDigitsRec_length_one h10]
    · intro c hc
      rw [String.data_append, repr_data] at hc
      rcases List.mem_append.mp hc with h0 | hdig
      · rw [List.mem_singleton.mp h0]
        decide
      · exact toDigitsRec_all_digit n c hdig
  · rw [if_neg h10, toString_nat_eq]
    constructor
    · rw [repr_data]
      have hp1 : (10 : Nat) ^ 1 = 10 := by norm_num
      have hp2 : (10 : Nat) ^ (1 + 1) = 100 := by norm_num
      exact toDigitsRec_length 1 n (hp1 ▸ Nat.le_of_not_lt h10) (hp2 ▸ h)
    · intro c hc
      rw [repr_data] at hc
      exact toDigitsRec_all_digit n c hc

theorem pad4_len_digits {y : Nat} (h1 : 1000 ≤ y) (h2 : y < 10000) :
    (pad4 y).data.length = 4 ∧ ∀ c ∈ (pad4 y).data, c.isDigit = true := by
  unfold pad4
  rw [if_neg (by omega), if_neg (by omega), if_neg (by omega), toString_nat_eq]
  constructor
  · rw [repr_data]
    have hp1 : (10 : Nat) ^ 3 = 1000 := by norm_num
    have hp2 : (10 : Nat) ^ (3 + 1) = 10000 := by norm_num
    exact toDigitsRec_length 3 y (hp1 ▸ h1) (hp2 ▸ h2)
  · intro c hc
    rw [repr_data] at hc
    exact toDigitsRec_all_digit y c hc

theorem countP_eq_length_of_all {p : Char → Bool} :
    ∀ (l : List Char), (∀ c ∈ l, p c = true) → l.countP p = l.length := by
  intro l
  induction l with
  | nil => intro; rfl
  | cons c cs ih =>
    intro h
    rw [List.countP_cons, ih (fun c2 hm => h c2 (List.mem_cons_of_mem _ hm)),
      h c (List.mem_cons_self _ _)]
    simp [List.length_cons]

/-! ## Claim C9: output naming -/

/-- C9 counterexample: at the instant 2025-01-01 12:00:00 the dedupe-scenario
output name is `Appended_data_20250101_120000.xlsx` (in the working
directory); the portion between the base label and the extension is the
15-character `20250101_120000`, not a run of 14 digit characters, so the name
does not match the pattern `Appended_data_<14-digit-timestamp>.<ext>` read as
14 consecutive digits. -/
theorem output_name_counterexample :
    ¬ ∃ ds : String,
      safe_output_name "" "Appended_data" "xlsx" ⟨2025, 1, 1, 12, 0, 0⟩ =
        "" ++ "/" ++ "Appended_data" ++ "_" ++ ds ++ "." ++ "xlsx" ∧
      ds.length = 14 ∧ ds.data.all Char.isDigit = true := by
  rintro ⟨ds, heq, hlen, -⟩
  have h1 : safe_output_name "" "Appended_data" "xlsx" ⟨2025, 1, 1, 12, 0, 0⟩ =
      "/Appended_data_20250101_120000.xlsx" := by decide
  rw [h1] at heq
  have hd := congrArg (fun s => s.data.length) heq
  simp only [String.data_append, List.length_append] at hd
  have hds : ds.data.length = 14 := hlen
  have c1 : ("" : String).data.length = 0 := rfl
  have c2 : ("/" : String).data.length = 1 := rfl
  have c3 : ("Appended_data" : String).data.length = 13 := rfl
  have c4 : ("_" : String).data.length = 1 := rfl
  have c5 : ("." : String).data.length = 1 := rfl
  have c6 : ("xlsx" : String).data.length = 4 := rfl
  have c7 : ("/Appended_data_20250101_120000.xlsx" : String).data.length = 35 := rfl
  rw [c1, c2, c3, c4, c5, c6, c7, hds] at hd
  omega

/-- C9 (amended): every output path is the working directory joined with
`base_label`, an underscore, the second-precision timestamp
`%Y%m%d_%H%M%S`, and the chosen format's extension; the timestamp consists of
8 date digits, an underscore, and 6 time digits — 14 digits in total,
separated by an underscore rather than forming 14 consecutive digits — so the
dedupe-scenario name matches `Appended_data_<8 digits>_<6 digits>.<ext>`. -/
theorem output_name_structure (cwd base ext : String) (t : DateTime)
    (hy1 : 1000 ≤ t.year) (hy2 : t.year < 10000) (hmo : t.month < 100)
    (hd : t.day < 100) (hh : t.hour < 100) (hmi : t.minute < 100)
    (hs : t.second < 100) :
    ∃ dpart tpart : String,
      safe_output_name cwd base ext t =
        cwd ++ "/" ++ base ++ "_" ++ dpart ++ "_" ++ tpart ++ "." ++ ext ∧
      timestamp t = dpart ++ "_" ++ tpart ∧
      dpart.length = 8 ∧ tpart.length = 6 ∧
      dpart.data.all Char.isDigit = true ∧
      tpart.data.all Char.isDigit = true ∧
      (timestamp t).data.countP Char.isDigit = 14 := by
  obtain ⟨hy_len, hy_dig⟩ := pad4_len_digits hy1 hy2
  obtain ⟨hmo_len, hmo_dig⟩ := pad2_len_digits hmo
  obtain ⟨hd_len, hd_dig⟩ := pad2_len_digits hd
  obtain ⟨hh_len, hh_dig⟩ := pad2_len_digits hh
  obtain ⟨hmi_len, hmi_dig⟩ := pad2_len_digits hmi
  obtain ⟨hs_len, hs_dig⟩ := pad2_len_digits hs
  refine ⟨pad4 t.year ++ pad2 t.month ++ pad2 t.day,
    pad2 t.hour ++ pad2 t.minute ++ pad2 t.second, ?_, ?_, ?_, ?_, ?_, ?_, ?_⟩
  · apply String.toList_inj.mp
    simp [safe_output_name, timestamp, String.toList, String.data_append,
      List.append_assoc]
  · apply String.toList_inj.mp
    simp [timestamp, String.toList, String.data_append, List.append_assoc]
  · show (pad4 t.year ++ pad2 t.month ++ pad2 t.day).data.length = 8
    simp only [String.data_append, List.length_append]
    omega
  · show (pad2 t.hour ++ pad2 t.minute ++ pad2 t.second).data.length = 6
    simp only [String.data_append, List.length_append]
    omega
  · rw [List.all_eq_true]
    intro c hc
    simp only [String.data_append, List.mem_append] at hc
    rcases hc with (hc | hc) | hc
    · exact hy_dig c hc
    · exact hmo_dig c hc
    · exact hd_dig c hc
  · rw [List.all_eq_true]
    intro c hc
    simp only [String.data_append, List.mem_append] at hc
    rcases hc with (hc | hc) | hc
    · exact hh_dig c hc
    · exact hmi_dig c hc
    · exact hs_dig c hc
  · simp only [timestamp, String.data_append, List.countP_append]
    rw [countP_eq_length_of_all _ hy_dig, countP_eq_length_of_all _ hmo_dig,
      countP_eq_length_of_all _ hd_dig, countP_eq_length_of_all _ hh_dig,
      countP_eq_length_of_all _ hmi_dig, countP_eq_length_of_all _ hs_dig]
    have hu : ("_" : String).data.countP Char.isDigit = 0 := rfl
    rw [hu]
    omega

/-- C9 witness: the amended theorem applied at 2025-01-01 12:00:00. -/
theorem output_name_structure_witness :
    (1000 ≤ (DateTime.mk 2025 1 1 12 0 0).year ∧
      (DateTime.mk 2025 1 1 12 0 0).year < 10000 ∧
      (DateTime.mk 2025 1 1 12 0 0).month < 100 ∧
      (DateTime.mk 2025 1 1 12 0 0).day < 100 ∧
      (DateTime.mk 2025 1 1 12 0 0).hour < 100 ∧
      (DateTime.mk 2025 1 1 12 0 0).minute < 100 ∧
      (DateTime.mk 2025 1 1 12 0 0).second < 100) ∧
    ∃ dpart tpart : String,
      safe_output_name "." "Appended_data" "xlsx" (DateTime.mk 2025 1 1 12 0 0) =
        "." ++ "/" ++ "Appended_data" ++ "_" ++ dpart ++ "_" ++ tpart ++ "." ++ "xlsx" ∧
      timestamp (DateTime.mk 2025 1 1 12 0 0) = dpart ++ "_" ++ tpart ∧
      dpart.length = 8 ∧ tpart.length = 6 ∧
      dpart.data.all Char.isDigit = true ∧
      tpart.data.all Char.isDigit = true ∧
      (timestamp (DateTime.mk 2025 1 1 12 0 0)).data.countP Char.isDigit = 14 :=
  ⟨⟨by decide, by decide, by decide, by decide, by decide, by decide, by decide⟩,
    output_name_structure "." "Appended_data" "xlsx" (DateTime.mk 2025 1 1 12 0 0)
      (by decide) (by decide) (by decide) (by decide) (by decide) (by decide) (by decide)⟩

end AppendData
